import Mathlib

/-!
Verification of the s3sync synchronization engine (Go) against its
natural-language specification, via a shallow embedding in Lean 4.

The embedding follows `s3sync.go`. External collaborators (the S3 listing
and retrieval capability, the local filesystem) are modelled as explicit
inputs: the S3 listing as the list of page responses the service returns,
the filesystem as the stat result of the root plus the entries produced by
the directory walk, and the per-file download as an oracle from file record
to optional failure message. Go `time.Time` values are modelled as `Int`
(with `After` as strict `>`), Go `int64` sizes as `Int`, and Go `error`
values as `Option String` carrying the message.

The Go standard library path functions (`filepath.Clean`, `filepath.Join`,
`filepath.Rel` on a Unix separator) are modelled from their documented
lexical semantics, operating on character lists split at the separator.
-/

namespace S3Sync

/-! ## Model of Go path/filepath (Unix separator) -/

namespace GoPath

/-- A path segment: the characters between two separators. -/
abbrev Seg := List Char

/-- The segment `"."`. -/
def dot : Seg := ['.']

/-- The segment `".."`. -/
def dd : Seg := ['.', '.']

/-- Split a character list at every `'/'`, keeping empty segments.
The result is always non-empty. -/
def splitCL : List Char → List Seg
  | [] => [[]]
  | c :: cs =>
    if c = '/' then [] :: splitCL cs
    else
      match splitCL cs with
      | [] => [[c]]
      | s :: ss => (c :: s) :: ss

/-- Join segments with `'/'` separators (inverse of `splitCL` on
separator-free segments). -/
def joinCL : List Seg → List Char
  | [] => []
  | [x] => x
  | x :: xs => x ++ '/' :: joinCL xs

/-- One step of the lexical cleaning loop of Go `path.Clean`: push a segment
onto the stack of output segments (head of the list is the top). Empty and
`"."` segments are dropped; `".."` pops a regular segment, is dropped at the
root of a rooted path, and accumulates otherwise. -/
def cleanPush (rooted : Bool) (stack : List Seg) (seg : Seg) : List Seg :=
  if seg = [] ∨ seg = dot then stack
  else if seg = dd then
    match stack with
    | [] => if rooted then [] else [dd]
    | top :: rest => if top = dd then seg :: top :: rest else rest
  else seg :: stack

/-- The cleaning stack after processing all segments. -/
def cleanStack (rooted : Bool) (segs : List Seg) : List Seg :=
  segs.foldl (cleanPush rooted) []

/-- The cleaned segments of a path, in order. -/
def cleanSegsCL (rooted : Bool) (segs : List Seg) : List Seg :=
  (cleanStack rooted segs).reverse

/-- Render cleaned segments back into a path, as Go `path.Clean` does:
a rooted path gets a leading separator, an empty relative path is `"."`. -/
def renderCL (rooted : Bool) (segs : List Seg) : List Char :=
  if rooted then '/' :: joinCL segs
  else if segs = [] then dot else joinCL segs

/-- Whether a path string is rooted (absolute). -/
def isRooted (s : String) : Bool :=
  match s.data with
  | [] => false
  | c :: _ => c = '/'

/-- Models Go `filepath.Clean` on Unix: lexical simplification of a path. -/
def clean (s : String) : String :=
  ⟨renderCL (isRooted s) (cleanSegsCL (isRooted s) (splitCL s.data))⟩

/-- Models Go `filepath.Join` of two elements on Unix: empty elements are
ignored, the rest are joined with a separator and the result is cleaned. -/
def join2 (a b : String) : String :=
  if a = "" then (if b = "" then "" else clean b)
  else if b = "" then clean a
  else clean (a ++ "/" ++ b)

/-- Length of the longest common prefix of two segment lists. -/
def commonPrefixLen : List Seg → List Seg → Nat
  | a :: as, b :: bs => if a = b then commonPrefixLen as bs + 1 else 0
  | _, _ => 0

/-- Models Go `filepath.Rel` on Unix: both paths are cleaned; relativization
fails when exactly one is rooted or when the remaining base segments start
with `".."`; equal cleaned paths yield `"."`; otherwise the result climbs out
of the uncommon base segments and descends into the uncommon target
segments. -/
def rel (basepath targpath : String) : Except String String :=
  let br := isRooted basepath
  let tr := isRooted targpath
  let bs := cleanSegsCL br (splitCL basepath.data)
  let ts := cleanSegsCL tr (splitCL targpath.data)
  if br ≠ tr then
    .error ("Rel: cannot make " ++ targpath ++ " relative to " ++ basepath)
  else if bs = ts then .ok "."
  else
    let n := commonPrefixLen bs ts
    let bs2 := bs.drop n
    let ts2 := ts.drop n
    if bs2.head? = some dd then
      .error ("Rel: cannot make " ++ targpath ++ " relative to " ++ basepath)
    else .ok ⟨joinCL (List.replicate bs2.length dd ++ ts2)⟩

end GoPath

/-! ## Data model (`fileInfo` and friends, from `s3sync.go`) -/

/-- `fileInfo` from `s3sync.go`: one file record, local or remote. A record
with `err ≠ none` is an error sentinel; all other fields then hold Go zero
values. -/
structure fileInfo where
  err : Option String
  name : String
  path : String
  size : Int
  lastModified : Int
deriving DecidableEq, Repr

/-- `sendErrorInfoToChannel`: the error-sentinel record it emits (all fields
other than `err` are Go zero values). -/
def errInfo (e : String) : fileInfo :=
  { err := some e, name := "", path := "", size := 0, lastModified := 0 }

/-- The Go map `map[string]*fileInfo`, as a lookup function. -/
def FileMap : Type := String → Option fileInfo

/-- Go map assignment `result[file.name] = file`: later writes shadow
earlier ones. -/
def mapUpd (m : FileMap) (f : fileInfo) : FileMap :=
  fun n => if n = f.name then some f else m n

/-- The empty Go map. -/
def mapEmpty : FileMap := fun _ => none

/-- Loop of `fileInfoChanToMap`: accumulate records into the map, returning
the first error encountered instead, if any. -/
def fileInfoChanToMapAux (acc : FileMap) : List fileInfo → Except String FileMap
  | [] => .ok acc
  | f :: rest =>
    match f.err with
    | some e => .error e
    | none => fileInfoChanToMapAux (mapUpd acc f) rest

/-- `fileInfoChanToMap` from `s3sync.go`: drain the (already closed) channel,
modelled as the list of records it yields, into a name-indexed map; return
the first error instead if the channel contains an error record. -/
def fileInfoChanToMap (files : List fileInfo) : Except String FileMap :=
  fileInfoChanToMapAux mapEmpty files

/-- The forwarding condition of `filterFilesForSync`:
`!ok || sourceInfo.size != destInfo.size ||
 sourceInfo.lastModified.After(destInfo.lastModified)`. -/
def needsSync (destFiles : FileMap) (sourceInfo : fileInfo) : Bool :=
  match destFiles sourceInfo.name with
  | none => true
  | some destInfo =>
    sourceInfo.size ≠ destInfo.size ∨ sourceInfo.lastModified > destInfo.lastModified

/-- `filterFilesForSync` from `s3sync.go`: drain the destination sequence
into a map; on a drain error forward a single error-sentinel record;
otherwise forward exactly the source records satisfying `needsSync`. -/
def filterFilesForSync (sourceFiles destFiles : List fileInfo) : List fileInfo :=
  match fileInfoChanToMap destFiles with
  | .error e => [errInfo e]
  | .ok m => sourceFiles.filter (needsSync m)

/-! ## Remote Lister (`listS3Files` / `listS3FileWithToken`) -/

/-- One object of an S3 `ListObjectsV2` page: key, size, last-modified. -/
structure s3Object where
  key : String
  size : Int
  lastModified : Int
deriving DecidableEq, Repr

/-- One successful `ListObjectsV2` page: its contents and whether a
continuation token for a further page is present. -/
structure s3Page where
  contents : List s3Object
  next : Bool
deriving DecidableEq, Repr

/-- The record `listS3FileWithToken` emits for one listed object:
`name` is the key relative to the bucket prefix; a failed relativization
yields an error-sentinel record instead. -/
def objectRecord (pfx : String) (o : s3Object) : fileInfo :=
  match GoPath.rel pfx o.key with
  | .error e => errInfo e
  | .ok n =>
    { err := none, name := n, path := o.key, size := o.size,
      lastModified := o.lastModified }

/-- `listS3FileWithToken` from `s3sync.go`, for one page request whose
response is given: on a request error it emits one error-sentinel record and
reports no continuation; on success it emits one record per object and
reports whether a continuation token was returned. -/
def listS3FileWithToken (pfx : String) (resp : Except String s3Page) :
    List fileInfo × Bool :=
  match resp with
  | .error e => ([errInfo e], false)
  | .ok pg => (pg.contents.map (objectRecord pfx), pg.next)

/-- `listS3Files` from `s3sync.go`: request pages while a continuation token
is present. The remote service is modelled by the list of responses it
returns to the successive page requests. -/
def listS3Files (pfx : String) : List (Except String s3Page) → List fileInfo
  | [] => []
  | resp :: rest =>
    let out := listS3FileWithToken pfx resp
    out.1 ++ (if out.2 then listS3Files pfx rest else [])

/-! ## Local Lister (`listLocalFiles`) -/

/-- Go `os.FileInfo`, restricted to the fields the code reads. -/
structure osFileInfo where
  size : Int
  modTime : Int
  isDir : Bool
deriving DecidableEq, Repr

/-- The outcome of `os.Stat` on the local root: the path does not exist,
the stat itself failed, or a file info was found. -/
inductive rootStat where
  | notExist
  | statError (e : String)
  | found (st : osFileInfo)
deriving DecidableEq, Repr

/-- One step of `filepath.Walk`: the visited path, its stat (absent when the
walk passes an error for it), and the error passed to the callback. -/
structure walkEntry where
  path : String
  stat : Option osFileInfo
  err : Option String
deriving DecidableEq, Repr

/-- `sendFileInfoToChannel` from `s3sync.go`: directories (and missing
stats) emit nothing; a regular file emits one record whose name is its path
relative to the base path (the relativization error is discarded, leaving
the Go zero-value name). -/
def sendFileInfoToChannel (basePath path : String) (stat : Option osFileInfo) :
    List fileInfo :=
  match stat with
  | none => []
  | some st =>
    if st.isDir then []
    else
      let relPath := match GoPath.rel basePath path with | .ok r => r | .error _ => ""
      [{ err := none, name := relPath, path := path, size := st.size,
         lastModified := st.modTime }]

/-- The `filepath.Walk` loop of `listLocalFiles`: the callback aborts the
walk at the first entry carrying an error, which `listLocalFiles` then turns
into one error-sentinel record. -/
def walkFiles (basePath : String) : List walkEntry → List fileInfo
  | [] => []
  | e :: rest =>
    match e.err with
    | some msg => [errInfo msg]
    | none => sendFileInfoToChannel basePath e.path e.stat ++ walkFiles basePath rest

/-- `listLocalFiles` from `s3sync.go`: stat the root; a nonexistent root
emits nothing, a stat error emits one error-sentinel record; otherwise the
root itself is offered to `sendFileInfoToChannel` and, if it is a directory,
the tree is walked. The filesystem is modelled by the root stat outcome and
the walk entries. -/
def listLocalFiles (basePath : String) (rs : rootStat) (walk : List walkEntry) :
    List fileInfo :=
  match rs with
  | .notExist => []
  | .statError e => [errInfo e]
  | .found st =>
    sendFileInfoToChannel basePath basePath (some st) ++
      (if st.isDir then walkFiles basePath walk else [])

/-! ## Fetch Pipeline (`syncS3ToLocal`, `download`) -/

/-- The loop body of `syncS3ToLocal` over the filtered records: an
error-sentinel record appends its message; otherwise the download runs and a
failing download appends its message. The per-file download is modelled as
an oracle returning the failure message, if any. Goroutine interleaving is
collapsed to dispatch order, which is the append order the model fixes. -/
def fetchLoop (download : fileInfo → Option String) (sources : List fileInfo) :
    List String :=
  sources.foldl
    (fun errMsgs source =>
      match source.err with
      | some e => errMsgs ++ [e]
      | none =>
        match download source with
        | some e => errMsgs ++ [e]
        | none => errMsgs)
    []

/-- `syncS3ToLocal` from `s3sync.go`: run the fetch loop over the filtered
records; return `none` when no failure message was collected, and otherwise
one error joining all collected messages with newlines. -/
def syncS3ToLocal (download : fileInfo → Option String)
    (sourceFiles destFiles : List fileInfo) : Option String :=
  let errMsgs := fetchLoop download (filterFilesForSync sourceFiles destFiles)
  if errMsgs.length > 0 then some (String.intercalate "\n" errMsgs) else none

/-- The failure messages of a record sequence, as `filterMap`: the sentinel
message of an error record, or the download failure of a regular record. -/
def failureMsgs (download : fileInfo → Option String) (l : List fileInfo) :
    List String :=
  l.filterMap (fun f => match f.err with | some e => some e | none => download f)

/-- The S3 object key requested by `download` in `s3sync.go`:
`filepath.Join(sourcePath.bucketPrefix, file.name)`. -/
def downloadKey (bucketPfx name : String) : String :=
  GoPath.join2 bucketPfx name

/-! ## Sync Manager (`Sync`) -/

/-- A parsed URL, restricted to the components `Sync` reads. -/
structure URL where
  scheme : String
  host : String
  path : String
deriving DecidableEq, Repr

/-- `isS3URL` from `s3sync.go`. -/
def isS3URL (u : URL) : Bool := u.scheme = "s3"

/-- `s3Path` from `s3sync.go`. -/
structure s3Path where
  bucket : String
  bucketPfx : String
deriving DecidableEq, Repr

/-- Go `strings.TrimPrefix(s, "/")`: drop one leading slash if present. -/
def trimLeadingSlash (s : String) : String :=
  if s.startsWith "/" then s.drop 1 else s

/-- `urlToS3Path` from `s3sync.go`. -/
def urlToS3Path (u : URL) : Except String s3Path :=
  if u.host = "" then .error "s3 url is missing bucket name"
  else .ok { bucket := u.host, bucketPfx := trimLeadingSlash u.path }

/-- What `Sync` decides to do after classifying the two addresses: fail
immediately with an error message (before any listing, walking or transfer
I/O), or run the S3-to-local pipeline. -/
inductive SyncPlan where
  | fail (msg : String)
  | s3ToLocal (src : s3Path) (destPath : String)
deriving DecidableEq, Repr

/-- `Sync` from `s3sync.go`, after URL parsing: classify each address by
scheme and dispatch. Only the S3-to-local direction reaches the pipeline;
every other direction fails immediately (`syncS3ToS3` and `syncLocalToS3`
return fixed not-implemented errors). -/
def Sync (sourceURL destURL : URL) (dest : String) : SyncPlan :=
  if isS3URL sourceURL then
    match urlToS3Path sourceURL with
    | .error e => .fail e
    | .ok sp =>
      if isS3URL destURL then
        match urlToS3Path destURL with
        | .error e => .fail e
        | .ok _ => .fail "S3 to S3 sync feature is not implemented"
      else .s3ToLocal sp dest
  else if isS3URL destURL then
    match urlToS3Path destURL with
    | .error e => .fail e
    | .ok _ => .fail "Local to S3 sync feature is not implemented"
  else .fail "local to local sync is not supported"

/-! ## Proof-support predicates -/

/-- A plain path-name segment: nonempty, not a dot segment, separator-free. -/
def GoPath.goodSeg (x : GoPath.Seg) : Prop :=
  x ≠ [] ∧ x ≠ GoPath.dot ∧ x ≠ GoPath.dd ∧ '/' ∉ x

/-- The shape of a cleaned segment list: parent-directory segments first
(none for a rooted path), then plain name segments. -/
def GoPath.cleanedShape (rooted : Bool) (segs : List GoPath.Seg) : Prop :=
  ∃ m ns, segs = List.replicate m GoPath.dd ++ ns ∧
    (∀ x ∈ ns, GoPath.goodSeg x) ∧ (rooted = true → m = 0)

/-- The shape of a cleaning stack (top first): plain name segments above,
parent-directory segments at the bottom (none for a rooted path). -/
def GoPath.stackShape (rooted : Bool) (st : List GoPath.Seg) : Prop :=
  ∃ ns m, st = ns ++ List.replicate m GoPath.dd ∧
    (∀ x ∈ ns, GoPath.goodSeg x) ∧ (rooted = true → m = 0)

/-! ## Helper lemmas: the destination map -/

theorem fileInfoChanToMapAux_ok_of_noErr (l : List fileInfo) :
    ∀ acc : FileMap, (∀ f ∈ l, f.err = none) →
      fileInfoChanToMapAux acc l = .ok (l.foldl mapUpd acc) := by
  induction l with
  | nil => intro acc _; rfl
  | cons f rest ih =>
    intro acc h
    have hf : f.err = none := h f (by simp)
    simp only [fileInfoChanToMapAux, hf, List.foldl_cons]
    exact ih (mapUpd acc f) (fun g hg => h g (by simp [hg]))

theorem fileInfoChanToMapAux_ok_inv (l : List fileInfo) :
    ∀ acc m : FileMap, fileInfoChanToMapAux acc l = .ok m →
      (∀ f ∈ l, f.err = none) ∧ m = l.foldl mapUpd acc := by
  induction l with
  | nil =>
    intro acc m h
    simp only [fileInfoChanToMapAux] at h
    cases h
    exact ⟨by simp, rfl⟩
  | cons f rest ih =>
    intro acc m h
    simp only [fileInfoChanToMapAux] at h
    cases hf : f.err with
    | some e => rw [hf] at h; cases h
    | none =>
      rw [hf] at h
      obtain ⟨h1, h2⟩ := ih (mapUpd acc f) m h
      refine ⟨?_, by simpa using h2⟩
      intro g hg
      rcases List.mem_cons.mp hg with hg | hg
      · subst hg; exact hf
      · exact h1 g hg

theorem fileInfoChanToMapAux_error_at_first (rest : List fileInfo)
    (bad : fileInfo) (e : String) (hbad : bad.err = some e) :
    ∀ (pre : List fileInfo) (acc : FileMap), (∀ f ∈ pre, f.err = none) →
      fileInfoChanToMapAux acc (pre ++ bad :: rest) = .error e := by
  intro pre
  induction pre with
  | nil => intro acc _; simp [fileInfoChanToMapAux, hbad]
  | cons f tail ih =>
    intro acc h
    have hf : f.err = none := h f (by simp)
    simp only [List.cons_append, fileInfoChanToMapAux, hf]
    exact ih (mapUpd acc f) (fun g hg => h g (by simp [hg]))

theorem foldl_mapUpd_not_mem (l : List fileInfo) :
    ∀ (acc : FileMap) (n : String), n ∉ l.map fileInfo.name →
      l.foldl mapUpd acc n = acc n := by
  induction l with
  | nil => intro acc n _; rfl
  | cons f rest ih =>
    intro acc n hn
    simp only [List.map_cons, List.mem_cons, not_or] at hn
    simp only [List.foldl_cons]
    rw [ih (mapUpd acc f) n hn.2]
    simp [mapUpd, hn.1]

theorem foldl_mapUpd_lookup (l : List fileInfo) :
    ∀ (acc : FileMap) (d : fileInfo), (l.map fileInfo.name).Nodup → d ∈ l →
      l.foldl mapUpd acc d.name = some d := by
  induction l with
  | nil => intro _ _ _ h; cases h
  | cons f rest ih =>
    intro acc d hnd hd
    simp only [List.map_cons, List.nodup_cons] at hnd
    rcases List.mem_cons.mp hd with hd | hd
    · subst hd
      simp only [List.foldl_cons]
      rw [foldl_mapUpd_not_mem rest (mapUpd acc d) d.name hnd.1]
      simp [mapUpd]
    · exact ih (mapUpd acc f) d hnd.2 hd

theorem needsSync_eq_true_iff (m : FileMap) (fi : fileInfo) :
    needsSync m fi = true ↔
      (m fi.name = none ∨ ∃ d, m fi.name = some d ∧
        (fi.size ≠ d.size ∨ fi.lastModified > d.lastModified)) := by
  cases h : m fi.name with
  | none => simp [needsSync, h]
  | some d => simp [needsSync, h]

/-! ## Claims about the Diff Filter -/

/-- C1: for every remote record with no error sentinel, the Diff Filter
forwards it to its output sequence if and only if no local record in the
drained local index shares its name, or the remote size differs from the
local size, or the remote lastModified is strictly after the local
lastModified. -/
theorem filter_forwards_iff (src dst : List fileInfo) (m : FileMap)
    (fi : fileInfo) (hm : fileInfoChanToMap dst = .ok m)
    (_hfi : fi.err = none) :
    fi ∈ filterFilesForSync src dst ↔
      fi ∈ src ∧ (m fi.name = none ∨ ∃ d, m fi.name = some d ∧
        (fi.size ≠ d.size ∨ fi.lastModified > d.lastModified)) := by
  unfold filterFilesForSync
  rw [hm]
  rw [List.mem_filter, needsSync_eq_true_iff]

theorem filter_forwards_iff_witness :
    ({ err := none, name := "a", path := "a", size := 2, lastModified := 9 } :
        fileInfo) ∈
      filterFilesForSync
        [{ err := none, name := "a", path := "a", size := 2, lastModified := 9 }]
        [{ err := none, name := "a", path := "/d/a", size := 1, lastModified := 3 }] := by
  refine (filter_forwards_iff
    [{ err := none, name := "a", path := "a", size := 2, lastModified := 9 }]
    [{ err := none, name := "a", path := "/d/a", size := 1, lastModified := 3 }]
    (mapUpd mapEmpty
      { err := none, name := "a", path := "/d/a", size := 1, lastModified := 3 })
    { err := none, name := "a", path := "a", size := 2, lastModified := 9 }
    rfl rfl).mpr ?_
  exact ⟨by simp, Or.inr ⟨_, rfl, Or.inl (by decide)⟩⟩

/-- C2 as stated is false: a remote error-sentinel record satisfies the
premise vacuously (it is not a non-sentinel record) yet is forwarded, so the
filter does not forward "no records at all". Concretely, with remote
sequence `[errInfo "remote list failed"]` and empty local sequence, every
non-sentinel remote record trivially has a fully synced local counterpart,
but the output is nonempty. -/
theorem filter_synced_counterexample :
    (∀ fi ∈ [errInfo "remote list failed"], fi.err = none →
      ∃ d ∈ ([] : List fileInfo), d.name = fi.name ∧ d.size = fi.size ∧
        fi.lastModified ≤ d.lastModified) ∧
    filterFilesForSync [errInfo "remote list failed"] [] ≠ [] := by
  constructor
  · intro fi hfi herr
    simp only [List.mem_singleton] at hfi
    subst hfi
    simp [errInfo] at herr
  · decide

/-- C2 (amended): if neither sequence contains an error-sentinel record,
local names are unique (the data-model invariant), and every remote record
has a local record with the same name, equal size, and a lastModified not
before the remote lastModified, then the Diff Filter forwards no records
(a second sync over an unchanged, fully synced tree performs zero
downloads). -/
theorem filter_synced_forwards_nothing (src dst : List fileInfo)
    (hdstErr : ∀ f ∈ dst, f.err = none)
    (hnodup : (dst.map fileInfo.name).Nodup)
    (hsync : ∀ f ∈ src, ∃ d ∈ dst, d.name = f.name ∧ d.size = f.size ∧
      f.lastModified ≤ d.lastModified) :
    filterFilesForSync src dst = [] := by
  unfold filterFilesForSync fileInfoChanToMap
  rw [fileInfoChanToMapAux_ok_of_noErr dst mapEmpty hdstErr]
  rw [List.filter_eq_nil_iff]
  intro f hf
  obtain ⟨d, hd, hname, hsize, htime⟩ := hsync f hf
  have hlook : dst.foldl mapUpd mapEmpty f.name = some d := by
    rw [← hname]
    exact foldl_mapUpd_lookup dst mapEmpty d hnodup hd
  rw [needsSync_eq_true_iff]
  push_neg
  refine ⟨by simp [hlook], ?_⟩
  intro d2 hd2
  rw [hlook] at hd2
  cases hd2
  exact ⟨hsize.symm, htime⟩

theorem filter_synced_forwards_nothing_witness :
    filterFilesForSync
      [{ err := none, name := "a", path := "a", size := 1, lastModified := 5 }]
      [{ err := none, name := "a", path := "/d/a", size := 1, lastModified := 7 }] = [] := by
  refine filter_synced_forwards_nothing _ _ (by decide) (by decide) ?_
  intro f hf
  simp only [List.mem_singleton] at hf
  subst hf
  exact ⟨{ err := none, name := "a", path := "/d/a", size := 1, lastModified := 7 },
    by simp, rfl, rfl, by decide⟩

/-- C4: if the local sequence yields an error-sentinel record while the Diff
Filter is draining it into the name-to-record index, the filter forwards
exactly one error-sentinel record downstream and then terminates, forwarding
no remote records. -/
theorem filter_aborts_on_local_error (src pre rest : List fileInfo)
    (bad : fileInfo) (e : String) (hpre : ∀ f ∈ pre, f.err = none)
    (hbad : bad.err = some e) :
    filterFilesForSync src (pre ++ bad :: rest) = [errInfo e] := by
  unfold filterFilesForSync fileInfoChanToMap
  rw [fileInfoChanToMapAux_error_at_first rest bad e hbad pre mapEmpty hpre]

theorem filter_aborts_on_local_error_witness :
    filterFilesForSync
      [{ err := none, name := "a", path := "a", size := 1, lastModified := 5 }]
      [{ err := none, name := "b", path := "/d/b", size := 2, lastModified := 1 },
       errInfo "walk failed"] = [errInfo "walk failed"] := by
  exact filter_aborts_on_local_error _
    [{ err := none, name := "b", path := "/d/b", size := 2, lastModified := 1 }]
    [] (errInfo "walk failed") "walk failed" (by decide) rfl

/-- C5: every error-sentinel record present in the remote input sequence of
the Diff Filter is forwarded to its output sequence unchanged, for every
local index drained from records whose names are nonempty (no local record
name can equal a sentinel's empty name, so the diff condition never drops
the sentinel). -/
theorem filter_forwards_error_records (src dst : List fileInfo) (e : String)
    (hdstErr : ∀ f ∈ dst, f.err = none)
    (hdstName : ∀ f ∈ dst, f.name ≠ "")
    (hmem : errInfo e ∈ src) :
    errInfo e ∈ filterFilesForSync src dst := by
  unfold filterFilesForSync fileInfoChanToMap
  rw [fileInfoChanToMapAux_ok_of_noErr dst mapEmpty hdstErr]
  rw [List.mem_filter]
  refine ⟨hmem, ?_⟩
  rw [needsSync_eq_true_iff]
  left
  have : (errInfo e).name ∉ dst.map fileInfo.name := by
    simp only [errInfo, List.mem_map]
    rintro ⟨f, hf, hname⟩
    exact hdstName f hf hname
  rw [foldl_mapUpd_not_mem dst mapEmpty _ this]
  rfl

theorem filter_forwards_error_records_witness :
    errInfo "page request failed" ∈
      filterFilesForSync
        [{ err := none, name := "a", path := "a", size := 1, lastModified := 5 },
         errInfo "page request failed"]
        [{ err := none, name := "a", path := "/d/a", size := 1, lastModified := 7 }] := by
  exact filter_forwards_error_records _ _ _ (by decide) (by decide) (by decide)

/-! ## Claims about the Fetch Pipeline -/

theorem fetchLoop_eq_failureMsgs_aux (download : fileInfo → Option String)
    (l : List fileInfo) :
    ∀ acc : List String,
      l.foldl
        (fun errMsgs source =>
          match source.err with
          | some e => errMsgs ++ [e]
          | none =>
            match download source with
            | some e => errMsgs ++ [e]
            | none => errMsgs)
        acc = acc ++ failureMsgs download l := by
  induction l with
  | nil => intro acc; simp [failureMsgs]
  | cons f rest ih =>
    intro acc
    cases hf : f.err with
    | some e =>
      simp only [List.foldl_cons, hf, failureMsgs, List.filterMap_cons]
      rw [ih (acc ++ [e])]
      simp [failureMsgs]
    | none =>
      cases hd : download f with
      | some e =>
        simp only [List.foldl_cons, hf, hd, failureMsgs, List.filterMap_cons]
        rw [ih (acc ++ [e])]
        simp [failureMsgs]
      | none =>
        simp only [List.foldl_cons, hf, hd, failureMsgs, List.filterMap_cons]
        rw [ih acc]
        simp [failureMsgs]

theorem fetchLoop_eq_failureMsgs (download : fileInfo → Option String)
    (l : List fileInfo) : fetchLoop download l = failureMsgs download l := by
  unfold fetchLoop
  rw [fetchLoop_eq_failureMsgs_aux download l []]
  simp

/-- C3: after all dispatched fetch tasks complete, the pipeline returns no
error exactly when no failure message was appended, and otherwise exactly
one error whose message is the newline-joined concatenation of every
appended failure message, in append order (the model fixes append order to
dispatch order). -/
theorem syncS3ToLocal_result (download : fileInfo → Option String)
    (src dst : List fileInfo) :
    (syncS3ToLocal download src dst = none ↔
      failureMsgs download (filterFilesForSync src dst) = []) ∧
    (failureMsgs download (filterFilesForSync src dst) ≠ [] →
      syncS3ToLocal download src dst =
        some (String.intercalate "\n"
          (failureMsgs download (filterFilesForSync src dst)))) := by
  unfold syncS3ToLocal
  rw [fetchLoop_eq_failureMsgs]
  constructor
  · constructor
    · intro h
      by_contra hne
      have : 0 < (failureMsgs download (filterFilesForSync src dst)).length :=
        List.length_pos.mpr hne
      simp only [this, if_pos] at h
      cases h
    · intro h
      simp [h]
  · intro h
    have : 0 < (failureMsgs download (filterFilesForSync src dst)).length :=
      List.length_pos.mpr h
    simp [this]

theorem syncS3ToLocal_result_witness :
    syncS3ToLocal
      (fun f => if f.name = "a" then some "download of a failed" else none)
      [{ err := none, name := "a", path := "p/a", size := 1, lastModified := 5 },
       errInfo "listing broke"]
      [] = some "download of a failed\nlisting broke" := by
  rw [(syncS3ToLocal_result
    (fun f => if f.name = "a" then some "download of a failed" else none)
    [{ err := none, name := "a", path := "p/a", size := 1, lastModified := 5 },
     errInfo "listing broke"]
    []).2 (by decide)]
  rfl

/-! ## Claims about the Remote Lister -/

/-- C6: if a remote listing page request fails, the Remote Lister emits
exactly one error-sentinel record and then produces no further pages and no
further records (no retry); records from pages fetched before the failure
are still emitted. -/
theorem listS3Files_stops_on_page_error (pfx e : String)
    (good rest : List (Except String s3Page))
    (hgood : ∀ g ∈ good, ∃ pg : s3Page, g = .ok pg ∧ pg.next = true) :
    listS3Files pfx (good ++ .error e :: rest) =
      (good.map (fun g => (listS3FileWithToken pfx g).1)).flatten ++
        [errInfo e] := by
  induction good with
  | nil => simp [listS3Files, listS3FileWithToken]
  | cons g tail ih =>
    obtain ⟨pg, hg, hnext⟩ := hgood g (by simp)
    subst hg
    have ih2 := ih (fun g2 hg2 => hgood g2 (by simp [hg2]))
    simp only [List.cons_append, listS3Files, List.map_cons, List.flatten_cons,
      List.append_assoc, List.append_eq]
    rw [show (listS3FileWithToken pfx (Except.ok pg)).2 = true from hnext]
    rw [if_pos rfl, ih2]

theorem listS3Files_stops_on_page_error_witness :
    listS3Files "p"
      [Except.ok { contents := [{ key := "p/a", size := 3, lastModified := 7 }],
                   next := true },
       Except.error "page request failed",
       Except.ok { contents := [{ key := "p/b", size := 4, lastModified := 8 }],
                   next := false }] =
      ([[objectRecord "p" { key := "p/a", size := 3, lastModified := 7 }]].flatten ++
        [errInfo "page request failed"]) := by
  exact listS3Files_stops_on_page_error "p" "page request failed"
    [Except.ok { contents := [{ key := "p/a", size := 3, lastModified := 7 }],
                 next := true }]
    [Except.ok { contents := [{ key := "p/b", size := 4, lastModified := 8 }],
                 next := false }]
    (by
      intro g hg
      simp only [List.mem_singleton] at hg
      subst hg
      exact ⟨_, rfl, rfl⟩)

/-! ## Claims about the Local Lister -/

/-- C7: if the local root path does not exist, the Local Lister's sequence
is empty: it emits no records at all, in particular no error-sentinel
record, so a first sync into a nonexistent destination treats the local tree
as empty rather than failing. -/
theorem listLocalFiles_notExist (basePath : String) (walk : List walkEntry) :
    listLocalFiles basePath .notExist walk = [] := rfl

/-! ## Claims about the Sync Manager -/

/-- C8: for every pair of parsed input addresses with a remote source and
remote destination, or a local source and local destination, or a local
source and remote destination, `Sync` returns a non-nil descriptive error
immediately, without performing any listing, walking, or transfer I/O (the
plan is `fail`, never the S3-to-local pipeline). -/
theorem sync_unsupported_directions (u v : URL) (dest : String)
    (h : ¬(isS3URL u = true ∧ isS3URL v = false)) :
    ∃ msg, Sync u v dest = .fail msg := by
  unfold Sync
  cases hu : isS3URL u with
  | false =>
    rw [if_neg (by simp)]
    cases hv : isS3URL v with
    | false =>
      rw [if_neg (by simp)]
      exact ⟨_, rfl⟩
    | true =>
      rw [if_pos rfl]
      cases huv : urlToS3Path v with
      | error e => exact ⟨e, rfl⟩
      | ok sp => exact ⟨_, rfl⟩
  | true =>
    have hv : isS3URL v = true := by
      cases hv : isS3URL v with
      | false => exact absurd ⟨hu, hv⟩ h
      | true => rfl
    rw [if_pos rfl]
    cases huu : urlToS3Path u with
    | error e => exact ⟨e, rfl⟩
    | ok sp =>
      dsimp only
      rw [if_pos hv]
      cases huv : urlToS3Path v with
      | error e => exact ⟨e, rfl⟩
      | ok sp2 => exact ⟨_, rfl⟩

theorem sync_unsupported_directions_witness :
    ∃ msg, Sync { scheme := "s3", host := "b", path := "/p" }
      { scheme := "s3", host := "c", path := "/q" } "/local" = .fail msg :=
  sync_unsupported_directions
    { scheme := "s3", host := "b", path := "/p" }
    { scheme := "s3", host := "c", path := "/q" } "/local" (by decide)

/-! ## Helper lemmas: splitting and joining paths -/

namespace GoPath

theorem splitCL_ne_nil (l : List Char) : splitCL l ≠ [] := by
  cases l with
  | nil => simp [splitCL]
  | cons c cs =>
    by_cases hc : c = '/'
    · simp [splitCL, hc]
    · simp only [splitCL, hc, if_false]
      cases h : splitCL cs with
      | nil => simp
      | cons s ss => simp

theorem splitCL_append (x y : List Char) :
    splitCL (x ++ '/' :: y) = splitCL x ++ splitCL y := by
  induction x with
  | nil => simp [splitCL]
  | cons c cs ih =>
    by_cases hc : c = '/'
    · simp [splitCL, hc, ih]
    · simp only [List.cons_append, splitCL, hc, if_false, List.append_eq]
      cases h : splitCL cs with
      | nil => exact absurd h (splitCL_ne_nil cs)
      | cons s ss => rw [ih, h]; rfl

theorem splitCL_of_no_slash (l : List Char) (h : '/' ∉ l) : splitCL l = [l] := by
  induction l with
  | nil => rfl
  | cons c cs ih =>
    simp only [List.mem_cons, not_or] at h
    simp only [splitCL, Ne.symm h.1, if_false]
    rw [ih h.2]

theorem mem_splitCL_no_slash (l : List Char) :
    ∀ x ∈ splitCL l, '/' ∉ x := by
  induction l with
  | nil =>
    intro x hx
    simp only [splitCL, List.mem_singleton] at hx
    simp [hx]
  | cons c cs ih =>
    intro x hx
    by_cases hc : c = '/'
    · simp only [splitCL, hc, if_pos, List.mem_cons] at hx
      rcases hx with hx | hx
      · simp [hx]
      · exact ih x hx
    · simp only [splitCL, hc, if_false] at hx
      cases h : splitCL cs with
      | nil => exact absurd h (splitCL_ne_nil cs)
      | cons s ss =>
        rw [h] at hx
        rcases List.mem_cons.mp hx with hx | hx
        · subst hx
          have hs : '/' ∉ s := ih s (by rw [h]; simp)
          simp only [List.mem_cons, not_or]
          exact ⟨Ne.symm hc, hs⟩
        · exact ih x (by rw [h]; simp [hx])

theorem splitCL_joinCL (L : List Seg) (hL : L ≠ [])
    (h : ∀ x ∈ L, '/' ∉ x) : splitCL (joinCL L) = L := by
  induction L with
  | nil => exact absurd rfl hL
  | cons x xs ih =>
    cases xs with
    | nil => exact splitCL_of_no_slash x (h x (by simp))
    | cons y ys =>
      have hx : '/' ∉ x := h x (by simp)
      show splitCL (x ++ '/' :: joinCL (y :: ys)) = x :: y :: ys
      rw [splitCL_append, splitCL_of_no_slash x hx,
        ih (by simp) (fun z hz => h z (by simp [List.mem_cons] at hz ⊢; tauto))]
      rfl

theorem joinCL_ne_nil (L : List Seg) (hL : L ≠ []) (h : ∀ x ∈ L, x ≠ []) :
    joinCL L ≠ [] := by
  cases L with
  | nil => exact absurd rfl hL
  | cons x xs =>
    cases xs with
    | nil => exact h x (by simp)
    | cons y ys =>
      show x ++ '/' :: joinCL (y :: ys) ≠ []
      have hx : x ≠ [] := h x (by simp)
      cases x with
      | nil => exact absurd rfl hx
      | cons c cs => simp

theorem joinCL_head_not_slash (L : List Seg) (hL : L ≠ [])
    (hne : ∀ x ∈ L, x ≠ []) (hns : ∀ x ∈ L, '/' ∉ x) :
    ∀ c, (joinCL L).head? = some c → c ≠ '/' := by
  cases L with
  | nil => exact absurd rfl hL
  | cons x xs =>
    have hx : x ≠ [] := hne x (by simp)
    have hxs : '/' ∉ x := hns x (by simp)
    cases x with
    | nil => exact absurd rfl hx
    | cons c0 cs =>
      intro c hc
      have : (joinCL ((c0 :: cs) :: xs)).head? = some c0 := by
        cases xs with
        | nil => rfl
        | cons y ys => rfl
      rw [this] at hc
      cases hc
      simp only [List.mem_cons, not_or] at hxs
      exact Ne.symm hxs.1

/-! ## Helper lemmas: the cleaning stack -/

theorem cleanPush_empty (r : Bool) (S : List Seg) : cleanPush r S [] = S := by
  simp [cleanPush]

theorem cleanPush_dot (r : Bool) (S : List Seg) : cleanPush r S dot = S := by
  simp [cleanPush]

theorem cleanPush_dd_pop (r : Bool) (x : Seg) (S : List Seg) (hx : x ≠ dd) :
    cleanPush r (x :: S) dd = S := by
  unfold cleanPush
  rw [if_neg (by decide), if_pos rfl]
  exact if_neg hx

theorem cleanPush_dd_nil (r : Bool) :
    cleanPush r [] dd = if r then [] else [dd] := by
  unfold cleanPush
  rw [if_neg (by decide), if_pos rfl]

theorem cleanPush_dd_dd (r : Bool) (S : List Seg) :
    cleanPush r (dd :: S) dd = dd :: dd :: S := by
  unfold cleanPush
  rw [if_neg (by decide), if_pos rfl]
  exact if_pos rfl

theorem cleanPush_name (r : Bool) (S : List Seg) (x : Seg) (hx : goodSeg x) :
    cleanPush r S x = x :: S := by
  obtain ⟨h1, h2, h3, _⟩ := hx
  unfold cleanPush
  rw [if_neg (by simp [h1, h2]), if_neg h3]

theorem stackShape_nil (r : Bool) : stackShape r [] :=
  ⟨[], 0, by simp, by simp, fun _ => rfl⟩

theorem stackShape_cleanPush (r : Bool) (st : List Seg) (seg : Seg)
    (hst : stackShape r st) (hseg : '/' ∉ seg) :
    stackShape r (cleanPush r st seg) := by
  obtain ⟨ns, m, hshape, hgood, hroot⟩ := hst
  by_cases h1 : seg = [] ∨ seg = dot
  · rw [show cleanPush r st seg = st by
      unfold cleanPush; rw [if_pos h1]]
    exact ⟨ns, m, hshape, hgood, hroot⟩
  · by_cases h2 : seg = dd
    · subst h2
      cases hns : ns with
      | nil =>
        rw [hns] at hshape
        simp only [List.nil_append] at hshape
        subst hshape
        cases m with
        | zero =>
          rw [show List.replicate 0 dd = ([] : List Seg) from rfl, cleanPush_dd_nil]
          cases r with
          | true => exact ⟨[], 0, by simp, by simp, fun _ => rfl⟩
          | false => exact ⟨[], 1, by simp, by simp, by simp⟩
        | succ m2 =>
          rw [List.replicate_succ, cleanPush_dd_dd]
          refine ⟨[], m2 + 2, by simp [List.replicate_succ], by simp, ?_⟩
          intro hr
          exact absurd (hroot hr) (by simp)
      | cons x ntail =>
        rw [hns] at hshape hgood
        have hx : goodSeg x := hgood x (by simp)
        subst hshape
        rw [List.cons_append, cleanPush_dd_pop r x _ hx.2.2.1]
        exact ⟨ntail, m, rfl, fun z hz => hgood z (by simp [hz]), hroot⟩
    · have hgseg : goodSeg seg := ⟨fun h => h1 (Or.inl h), fun h => h1 (Or.inr h), h2, hseg⟩
      rw [cleanPush_name r st seg hgseg, hshape]
      exact ⟨seg :: ns, m, by simp, by
        intro z hz
        rcases List.mem_cons.mp hz with hz | hz
        · subst hz; exact hgseg
        · exact hgood z hz, hroot⟩

theorem stackShape_foldl (r : Bool) (segs : List Seg) :
    ∀ st : List Seg, stackShape r st → (∀ x ∈ segs, '/' ∉ x) →
      stackShape r (segs.foldl (cleanPush r) st) := by
  induction segs with
  | nil => intro st hst _; exact hst
  | cons seg rest ih =>
    intro st hst hns
    rw [List.foldl_cons]
    exact ih (cleanPush r st seg)
      (stackShape_cleanPush r st seg hst (hns seg (by simp)))
      (fun x hx => hns x (by simp [hx]))

theorem cleanedShape_cleanSegsCL (r : Bool) (segs : List Seg)
    (h : ∀ x ∈ segs, '/' ∉ x) : cleanedShape r (cleanSegsCL r segs) := by
  obtain ⟨ns, m, hshape, hgood, hroot⟩ :=
    stackShape_foldl r segs [] (stackShape_nil r) h
  refine ⟨m, ns.reverse, ?_, by simpa using hgood, hroot⟩
  unfold cleanSegsCL cleanStack
  rw [hshape, List.reverse_append, List.reverse_replicate]

theorem foldl_pop (r : Bool) :
    ∀ (l S : List Seg), (∀ x ∈ l, x ≠ dd) →
      (List.replicate l.length dd).foldl (cleanPush r) (l ++ S) = S := by
  intro l
  induction l with
  | nil => intro S _; rfl
  | cons x xs ih =>
    intro S h
    rw [List.length_cons, List.replicate_succ, List.foldl_cons, List.cons_append,
      cleanPush_dd_pop r x _ (h x (by simp))]
    exact ih S (fun z hz => h z (by simp [hz]))

theorem foldl_push_names (r : Bool) :
    ∀ (xs : List Seg) (S : List Seg), (∀ x ∈ xs, goodSeg x) →
      xs.foldl (cleanPush r) S = xs.reverse ++ S := by
  intro xs
  induction xs with
  | nil => intro S _; simp
  | cons x rest ih =>
    intro S h
    rw [List.foldl_cons, cleanPush_name r S x (h x (by simp)),
      ih (x :: S) (fun z hz => h z (by simp [hz]))]
    simp

theorem foldl_push_dds :
    ∀ (j c : Nat),
      (List.replicate j dd).foldl (cleanPush false) (List.replicate c dd) =
        List.replicate (j + c) dd := by
  intro j
  induction j with
  | zero => intro c; simp
  | succ j2 ih =>
    intro c
    rw [List.replicate_succ, List.foldl_cons]
    have hstep : cleanPush false (List.replicate c dd) dd =
        List.replicate (c + 1) dd := by
      cases c with
      | zero => rw [show List.replicate 0 dd = ([] : List Seg) from rfl,
          cleanPush_dd_nil]; rfl
      | succ c2 =>
        rw [List.replicate_succ, cleanPush_dd_dd, ← List.replicate_succ,
          ← List.replicate_succ]
    rw [hstep, ih (c + 1)]
    congr 1
    omega

theorem commonPrefixLen_le_left :
    ∀ a b : List Seg, commonPrefixLen a b ≤ a.length := by
  intro a
  induction a with
  | nil => intro b; simp [commonPrefixLen]
  | cons x xs ih =>
    intro b
    cases b with
    | nil => simp [commonPrefixLen]
    | cons y ys =>
      by_cases h : x = y
      · simp only [commonPrefixLen, h, if_pos, List.length_cons]
        exact Nat.succ_le_succ (ih ys)
      · simp [commonPrefixLen, h]

theorem commonPrefixLen_le_right :
    ∀ a b : List Seg, commonPrefixLen a b ≤ b.length := by
  intro a
  induction a with
  | nil => intro b; simp [commonPrefixLen]
  | cons x xs ih =>
    intro b
    cases b with
    | nil => simp [commonPrefixLen]
    | cons y ys =>
      by_cases h : x = y
      · simp only [commonPrefixLen, h, if_pos, List.length_cons]
        exact Nat.succ_le_succ (ih ys)
      · simp [commonPrefixLen, h]

theorem take_commonPrefixLen_eq :
    ∀ a b : List Seg,
      a.take (commonPrefixLen a b) = b.take (commonPrefixLen a b) := by
  intro a
  induction a with
  | nil => intro b; simp [commonPrefixLen]
  | cons x xs ih =>
    intro b
    cases b with
    | nil => simp [commonPrefixLen]
    | cons y ys =>
      by_cases h : x = y
      · simp only [commonPrefixLen, h, if_pos, List.take_succ_cons]
        rw [ih ys]
      · simp [commonPrefixLen, h]

theorem cleanStack_of_cleanedShape (r : Bool) (segs : List Seg)
    (h : cleanedShape r segs) : cleanStack r segs = segs.reverse := by
  obtain ⟨m, ns, hshape, hgood, hroot⟩ := h
  subst hshape
  unfold cleanStack
  rw [List.foldl_append]
  cases r with
  | true =>
    rw [hroot rfl]
    rw [show List.replicate 0 dd = ([] : List Seg) from rfl]
    rw [List.foldl_nil, foldl_push_names true ns [] hgood]
    simp
  | false =>
    have h0 : (List.replicate m dd).foldl (cleanPush false) ([] : List Seg) =
        List.replicate m dd := by
      have := foldl_push_dds m 0
      rw [show List.replicate 0 dd = ([] : List Seg) from rfl] at this
      simpa using this
    rw [h0, foldl_push_names false ns _ hgood, List.reverse_append,
      List.reverse_replicate]

theorem cleanSegsCL_of_cleanedShape (r : Bool) (segs : List Seg)
    (h : cleanedShape r segs) : cleanSegsCL r segs = segs := by
  unfold cleanSegsCL
  rw [cleanStack_of_cleanedShape r segs h, List.reverse_reverse]

theorem cleanedShape_mem (r : Bool) (segs : List Seg)
    (h : cleanedShape r segs) : ∀ x ∈ segs, x ≠ [] ∧ '/' ∉ x := by
  obtain ⟨m, ns, hshape, hgood, _⟩ := h
  subst hshape
  intro x hx
  rcases List.mem_append.mp hx with hx | hx
  · rw [List.eq_of_mem_replicate hx]
    exact ⟨by decide, by decide⟩
  · obtain ⟨h1, _, _, h4⟩ := hgood x hx
    exact ⟨h1, h4⟩

/-- Climbing out of the uncommon base segments and descending into the
uncommon target segments turns the cleaned base into the cleaned target:
the core of the `Join(base, Rel(base, targ)) = Clean(targ)` identity. -/
theorem foldl_climb (r : Bool) (bs ts : List Seg)
    (hb : cleanedShape r bs) (ht : cleanedShape r ts)
    (hhead : (bs.drop (commonPrefixLen bs ts)).head? ≠ some dd) :
    (List.replicate (bs.drop (commonPrefixLen bs ts)).length dd ++
        ts.drop (commonPrefixLen bs ts)).foldl (cleanPush r) bs.reverse =
      ts.reverse := by
  obtain ⟨mb, nsb, hbs, hgb, hrb⟩ := hb
  obtain ⟨mt, nst, hts, hgt, hrt⟩ := ht
  set cp := commonPrefixLen bs ts with hcp
  have htakeEq : bs.take cp = ts.take cp := take_commonPrefixLen_eq bs ts
  have hmb : mb ≤ cp := by
    by_contra hlt
    push_neg at hlt
    apply hhead
    have hsplit : List.replicate mb dd =
        List.replicate cp dd ++ List.replicate (mb - cp) dd := by
      rw [← List.replicate_add]
      congr 1
      omega
    have hdropbs : bs.drop cp = List.replicate (mb - cp) dd ++ nsb := by
      rw [hbs, hsplit, List.append_assoc]
      exact List.drop_left' (List.length_replicate _ _)
    rw [hdropbs]
    obtain ⟨j, hj⟩ : ∃ j, mb - cp = j + 1 := ⟨mb - cp - 1, by omega⟩
    rw [hj, List.replicate_succ]
    rfl
  have hdropbs : bs.drop cp = nsb.drop (cp - mb) := by
    rw [hbs, List.drop_append_eq_append_drop, List.length_replicate,
      List.drop_replicate, show mb - cp = 0 by omega]
    rfl
  have hbs2good : ∀ x ∈ bs.drop cp, goodSeg x := by
    intro x hx
    rw [hdropbs] at hx
    exact hgb x (List.mem_of_mem_drop hx)
  rw [List.foldl_append]
  have hpop : (List.replicate (bs.drop cp).length dd).foldl (cleanPush r)
      bs.reverse = (bs.take cp).reverse := by
    have hrev : bs.reverse = (bs.drop cp).reverse ++ (bs.take cp).reverse := by
      rw [← List.reverse_append, List.take_append_drop]
    rw [hrev, ← List.length_reverse (bs.drop cp)]
    exact foldl_pop r _ _ (fun x hx =>
      (hbs2good x (List.mem_reverse.mp hx)).2.2.1)
  rw [hpop, htakeEq]
  by_cases hcase : mt ≤ cp
  · have hts2 : ts.drop cp = nst.drop (cp - mt) := by
      rw [hts, List.drop_append_eq_append_drop, List.length_replicate,
        List.drop_replicate, show mt - cp = 0 by omega]
      rfl
    have hgood2 : ∀ x ∈ ts.drop cp, goodSeg x := by
      intro x hx
      rw [hts2] at hx
      exact hgt x (List.mem_of_mem_drop hx)
    rw [foldl_push_names r _ _ hgood2, ← List.reverse_append,
      List.take_append_drop]
  · push_neg at hcase
    have hr : r = false := by
      cases hrr : r with
      | false => rfl
      | true => exact absurd (hrt hrr) (by omega)
    subst hr
    have htake : ts.take cp = List.replicate cp dd := by
      rw [hts, List.take_append_of_le_length
        (by rw [List.length_replicate]; omega), List.take_replicate,
        show min cp mt = cp by omega]
    have hdrop : ts.drop cp = List.replicate (mt - cp) dd ++ nst := by
      have hsplit : List.replicate mt dd =
          List.replicate cp dd ++ List.replicate (mt - cp) dd := by
        rw [← List.replicate_add]
        congr 1
        omega
      rw [hts, hsplit, List.append_assoc]
      exact List.drop_left' (List.length_replicate _ _)
    rw [htake, hdrop, List.reverse_replicate, List.foldl_append,
      foldl_push_dds, foldl_push_names false _ _ hgt, hts,
      List.reverse_append, List.reverse_replicate,
      show mt - cp + cp = mt by omega]

/-! ## Helper lemmas: string-level path facts -/

theorem data_append (s t : String) : (s ++ t).data = s.data ++ t.data := rfl

theorem data_mk (l : List Char) : (⟨l⟩ : String).data = l := rfl

theorem data_empty : ("" : String).data = [] := rfl

theorem data_ne_nil (p : String) (hp : p ≠ "") : p.data ≠ [] := by
  intro h
  apply hp
  cases p with
  | mk d =>
    rw [data_mk] at h
    subst h
    rfl

theorem isRooted_append (p q : String) (hp : p ≠ "") :
    isRooted (p ++ q) = isRooted p := by
  unfold isRooted
  rw [data_append]
  cases hd : p.data with
  | nil => exact absurd hd (data_ne_nil p hp)
  | cons c cs => rw [List.cons_append]

theorem isRooted_eq_false_of_head (s : String)
    (h : ∀ c, s.data.head? = some c → c ≠ '/') : isRooted s = false := by
  unfold isRooted
  cases hd : s.data with
  | nil => rfl
  | cons c cs =>
    have hc : c ≠ '/' := h c (by rw [hd]; rfl)
    exact decide_eq_false hc

theorem clean_of_append (p n2 : String) (hp : p ≠ "") :
    clean (p ++ "/" ++ n2) =
      ⟨renderCL (isRooted p)
        (cleanSegsCL (isRooted p) (splitCL p.data ++ splitCL n2.data))⟩ := by
  have hd : (p ++ "/" ++ n2).data = p.data ++ '/' :: n2.data := by
    rw [data_append, data_append]
    simp
  have hr : isRooted (p ++ "/" ++ n2) = isRooted p := by
    rw [String.append_assoc]
    exact isRooted_append p _ hp
  unfold clean
  rw [hd, hr, splitCL_append]

theorem cleanSegsCL_append_dot (r : Bool) (A : List Seg) :
    cleanSegsCL r (A ++ [dot]) = cleanSegsCL r A := by
  unfold cleanSegsCL cleanStack
  rw [List.foldl_append, List.foldl_cons, cleanPush_dot, List.foldl_nil]

theorem cleanSegsCL_append_foldl (r : Bool) (A L : List Seg) :
    cleanSegsCL r (A ++ L) = (L.foldl (cleanPush r) (cleanSegsCL r A).reverse).reverse := by
  unfold cleanSegsCL cleanStack
  rw [List.foldl_append, List.reverse_reverse]

/-- The `Join(base, Rel(base, targ)) = Clean(targ)` identity of Go
`path/filepath`, for the model: when relativization succeeds, joining the
base with the relative result yields the cleaned target. -/
theorem join2_rel (p k n : String) (h : rel p k = .ok n) :
    join2 p n = clean k := by
  simp only [rel] at h
  split at h
  · cases h
  · split at h
    · -- equal cleaned paths: the relative path is "."
      rename_i hroot hsame
      have hroot2 : isRooted p = isRooted k := by
        by_contra hc
        exact hroot (by simpa using hc)
      have hn : n = "." := by
        cases h
        rfl
      subst hn
      by_cases hp : p = ""
      · subst hp
        have hts : cleanSegsCL (isRooted k) (splitCL k.data) = [] := by
          rw [← hsame]
          rfl
        have htr : isRooted k = false := by rw [← hroot2]; rfl
        show join2 "" "." = clean k
        unfold join2 clean
        rw [if_pos rfl, if_neg (by decide), hts, htr]
        rfl
      · unfold join2
        rw [if_neg hp, if_neg (by decide), clean_of_append p "." hp]
        unfold clean
        rw [show splitCL (".").data = [dot] from rfl, cleanSegsCL_append_dot,
          hsame, hroot2]
    · -- unequal cleaned paths: climb and descend
      rename_i hroot hsame
      have hroot2 : isRooted p = isRooted k := by
        by_contra hc
        exact hroot (by simpa using hc)
      split at h
      · cases h
      · rename_i hhead
        have hn : n = ⟨joinCL (List.replicate
            ((cleanSegsCL (isRooted p) (splitCL p.data)).drop
              (commonPrefixLen (cleanSegsCL (isRooted p) (splitCL p.data))
                (cleanSegsCL (isRooted k) (splitCL k.data)))).length dd ++
            (cleanSegsCL (isRooted k) (splitCL k.data)).drop
              (commonPrefixLen (cleanSegsCL (isRooted p) (splitCL p.data))
                (cleanSegsCL (isRooted k) (splitCL k.data))))⟩ := by
          cases h
          rfl
        have hbshape : cleanedShape (isRooted p)
            (cleanSegsCL (isRooted p) (splitCL p.data)) :=
          cleanedShape_cleanSegsCL _ _ (mem_splitCL_no_slash p.data)
        have htshape : cleanedShape (isRooted k)
            (cleanSegsCL (isRooted k) (splitCL k.data)) :=
          cleanedShape_cleanSegsCL _ _ (mem_splitCL_no_slash k.data)
        set bs := cleanSegsCL (isRooted p) (splitCL p.data) with hbsdef
        set ts := cleanSegsCL (isRooted k) (splitCL k.data) with htsdef
        set cp := commonPrefixLen bs ts with hcpdef
        set L := List.replicate (bs.drop cp).length dd ++ ts.drop cp with hLdef
        have hLmem : ∀ x ∈ L, x ≠ [] ∧ '/' ∉ x := by
          intro x hx
          rcases List.mem_append.mp hx with hx | hx
          · rw [List.eq_of_mem_replicate hx]
            exact ⟨by decide, by decide⟩
          · exact cleanedShape_mem _ _ htshape x (List.mem_of_mem_drop hx)
        have hLne : L ≠ [] := by
          intro hLnil
          rcases List.append_eq_nil.mp hLnil with ⟨h1, h2⟩
          have hb0 : bs.drop cp = [] :=
            List.eq_nil_of_length_eq_zero (by
              have := congrArg List.length h1
              simpa using this)
          apply hsame
          calc bs = bs.take cp ++ bs.drop cp := (List.take_append_drop cp bs).symm
            _ = ts.take cp ++ ts.drop cp := by
                rw [hb0, h2, take_commonPrefixLen_eq bs ts]
            _ = ts := List.take_append_drop cp ts
        have hndata : n.data = joinCL L := by rw [hn]
        have hnne : n ≠ "" := by
          intro hc
          have : n.data = [] := by rw [hc]
          rw [hndata] at this
          exact joinCL_ne_nil L hLne (fun x hx => (hLmem x hx).1) this
        have hclimb : (L.foldl (cleanPush (isRooted p)) bs.reverse).reverse = ts := by
          rw [hLdef, foldl_climb (isRooted p) bs ts hbshape
            (by rw [hroot2]; exact htshape) hhead, List.reverse_reverse]
        by_cases hp : p = ""
        · subst hp
          have hbs0 : bs = [] := by rw [hbsdef]; rfl
          have hL2 : L = ts := by
            rw [hLdef, hbs0]
            simp [hcpdef, hbs0, commonPrefixLen]
          have htr : isRooted k = false := by rw [← hroot2]; rfl
          have hnroot : isRooted n = false := by
            apply isRooted_eq_false_of_head
            intro c hc
            rw [hndata] at hc
            exact joinCL_head_not_slash L hLne
              (fun x hx => (hLmem x hx).1) (fun x hx => (hLmem x hx).2) c hc
          show join2 "" n = clean k
          unfold join2 clean
          rw [if_pos rfl, if_neg hnne, hndata, hnroot, hL2,
            splitCL_joinCL ts (hL2 ▸ hLne) (fun x hx => (hLmem x (hL2 ▸ hx)).2),
            cleanSegsCL_of_cleanedShape false ts (htr ▸ htshape), ← htsdef, htr]
        · unfold join2
          rw [if_neg hp, if_neg hnne, clean_of_append p n hp]
          unfold clean
          rw [hndata, splitCL_joinCL L hLne (fun x hx => (hLmem x hx).2)]
          rw [cleanSegsCL_append_foldl, ← hbsdef, hclimb, ← htsdef, hroot2]

theorem rel_self (s : String) : rel s s = .ok "." := by
  simp only [rel]
  rw [if_neg (by simp)]
  exact if_pos trivial

theorem cleanedShape_mem_cases (r : Bool) (segs : List Seg)
    (h : cleanedShape r segs) : ∀ x ∈ segs, x = dd ∨ goodSeg x := by
  obtain ⟨m, ns, hshape, hgood, _⟩ := h
  subst hshape
  intro x hx
  rcases List.mem_append.mp hx with hx | hx
  · exact Or.inl (List.eq_of_mem_replicate hx)
  · exact Or.inr (hgood x hx)

theorem joinCL_ne_dot (L : List Seg) (hne : L ≠ [])
    (helem : ∀ x ∈ L, x = dd ∨ goodSeg x) : joinCL L ≠ dot := by
  cases L with
  | nil => exact absurd rfl hne
  | cons x xs =>
    cases xs with
    | nil =>
      show x ≠ dot
      rcases helem x (by simp) with hx | hx
      · subst hx; decide
      · exact hx.2.1
    | cons y ys =>
      show x ++ '/' :: joinCL (y :: ys) ≠ dot
      have hx : x ≠ [] := by
        rcases helem x (by simp) with hx | hx
        · subst hx; decide
        · exact hx.1
      intro hcon
      have hlen := congrArg List.length hcon
      rw [List.length_append, List.length_cons] at hlen
      have : x.length = 0 := by
        have : dot.length = 1 := by decide
        omega
      exact hx (List.eq_nil_of_length_eq_zero this)

/-- When `Rel` succeeds with result `"."`, the target path cleans to the
same path as the base: `"."` arises only from equal cleaned paths. -/
theorem rel_eq_dot_clean_eq (p k n : String) (h : rel p k = .ok n)
    (hdot : n = ".") : clean k = clean p := by
  simp only [rel] at h
  split at h
  · cases h
  · split at h
    · rename_i hroot hsame
      have hroot2 : isRooted p = isRooted k := by
        by_contra hc
        exact hroot (by simpa using hc)
      unfold clean
      rw [← hsame, ← hroot2]
    · rename_i hroot hsame
      split at h
      · cases h
      · exfalso
        have hn : n = ⟨joinCL (List.replicate
            ((cleanSegsCL (isRooted p) (splitCL p.data)).drop
              (commonPrefixLen (cleanSegsCL (isRooted p) (splitCL p.data))
                (cleanSegsCL (isRooted k) (splitCL k.data)))).length dd ++
            (cleanSegsCL (isRooted k) (splitCL k.data)).drop
              (commonPrefixLen (cleanSegsCL (isRooted p) (splitCL p.data))
                (cleanSegsCL (isRooted k) (splitCL k.data))))⟩ := by
          cases h
          rfl
        set bs := cleanSegsCL (isRooted p) (splitCL p.data) with hbsdef
        set ts := cleanSegsCL (isRooted k) (splitCL k.data) with htsdef
        set cp := commonPrefixLen bs ts with hcpdef
        set L := List.replicate (bs.drop cp).length dd ++ ts.drop cp with hLdef
        have htshape : cleanedShape (isRooted k) ts :=
          cleanedShape_cleanSegsCL _ _ (mem_splitCL_no_slash k.data)
        have hLelem : ∀ x ∈ L, x = dd ∨ goodSeg x := by
          intro x hx
          rcases List.mem_append.mp hx with hx | hx
          · exact Or.inl (List.eq_of_mem_replicate hx)
          · exact cleanedShape_mem_cases _ _ htshape x (List.mem_of_mem_drop hx)
        have hLne : L ≠ [] := by
          intro hLnil
          rcases List.append_eq_nil.mp hLnil with ⟨h1, h2⟩
          have hb0 : bs.drop cp = [] :=
            List.eq_nil_of_length_eq_zero (by
              have := congrArg List.length h1
              simpa using this)
          apply hsame
          calc bs = bs.take cp ++ bs.drop cp := (List.take_append_drop cp bs).symm
            _ = ts.take cp ++ ts.drop cp := by
                rw [hb0, h2, take_commonPrefixLen_eq bs ts]
            _ = ts := List.take_append_drop cp ts
        have hdata : joinCL L = dot := by
          have : n.data = ("." : String).data := by rw [hdot]
          rw [hn] at this
          exact this
        exact joinCL_ne_dot L hLne hLelem hdata

end GoPath

/-! ## Claims about paths: C9 and C10 -/

/-- C9: for every remote object emitted by the Remote Lister with prefix p
and original key k, the emitted record carries name Rel(p, k), and the key
used by the download operation, Join(p, name), equals the path-cleaned form
of k; hence for every already-clean key the object requested for download is
exactly the object that was listed. -/
theorem download_requests_listed_object (pfx : String) (o : s3Object)
    (n : String) (h : GoPath.rel pfx o.key = .ok n) :
    objectRecord pfx o = { err := none, name := n, path := o.key,
                           size := o.size,
                           lastModified := o.lastModified } ∧
    downloadKey pfx n = GoPath.clean o.key ∧
    (GoPath.clean o.key = o.key → downloadKey pfx n = o.key) := by
  refine ⟨?_, ?_, ?_⟩
  · unfold objectRecord
    rw [h]
  · exact GoPath.join2_rel pfx o.key n h
  · intro hck
    rw [show downloadKey pfx n = GoPath.clean o.key from
      GoPath.join2_rel pfx o.key n h, hck]

theorem download_requests_listed_object_witness :
    objectRecord "foo" { key := "foo/bar", size := 3, lastModified := 7 } =
      { err := none, name := "bar", path := "foo/bar", size := 3,
        lastModified := 7 : fileInfo } ∧
    downloadKey "foo" "bar" = GoPath.clean "foo/bar" ∧
    (GoPath.clean "foo/bar" = "foo/bar" → downloadKey "foo" "bar" = "foo/bar") :=
  download_requests_listed_object "foo"
    { key := "foo/bar", size := 3, lastModified := 7 } "bar" rfl

/-- C10 as stated is false in its final clause: the single record emitted
for a file root has name `"."`, but it can also match a remote record whose
key merely cleans to the prefix without equalling it exactly. Concretely,
with prefix `"a"` the key `"a/."` relativizes to `"."`, so the remote record
matches the local root record (equal size, older timestamp) and is not
forwarded, although `"a/." ≠ "a"`. -/
theorem local_root_match_counterexample :
    "a/." ≠ "a" ∧
    filterFilesForSync
      [objectRecord "a" { key := "a/.", size := 3, lastModified := 6 }]
      (listLocalFiles "/dst"
        (.found { size := 3, modTime := 7, isDir := false }) []) = [] := by
  decide

/-- C10 (amended): when the local root path exists and is a regular
(non-directory) file, the Local Lister emits exactly one record, and that
record's name is `"."` (the relative path of the root to itself) rather than
the file's base name, so in the Diff Filter it can only match a remote
record whose key path-cleans to the remote prefix. -/
theorem listLocalFiles_single_file (basePath : String) (st : osFileInfo)
    (walk : List walkEntry) (h : st.isDir = false) :
    listLocalFiles basePath (.found st) walk =
      [{ err := none, name := ".", path := basePath, size := st.size,
         lastModified := st.modTime }] ∧
    (∀ pfx k n, GoPath.rel pfx k = .ok n → n = "." →
      GoPath.clean k = GoPath.clean pfx) := by
  constructor
  · unfold listLocalFiles sendFileInfoToChannel
    simp only [h, Bool.false_eq_true, if_false, GoPath.rel_self,
      List.append_nil]
  · intro pfx k n hrel hdot
    exact GoPath.rel_eq_dot_clean_eq pfx k n hrel hdot

theorem listLocalFiles_single_file_witness :
    listLocalFiles "/dst" (.found { size := 3, modTime := 7, isDir := false })
        [] =
      [{ err := none, name := ".", path := "/dst", size := 3,
         lastModified := 7 }] ∧
    (∀ pfx k n, GoPath.rel pfx k = .ok n → n = "." →
      GoPath.clean k = GoPath.clean pfx) :=
  listLocalFiles_single_file "/dst" { size := 3, modTime := 7, isDir := false }
    [] rfl

end S3Sync
